import Mathlib

/-!
Verification of the PII log-redaction module (`filtered_logger.py`).

The source has three parts:

* `filter_datum(fields, redaction, message, separator)`: for each field `f`
  it runs `re.sub(f'{f}=.*?{separator}', f'{f}={redaction}{separator}', message)`,
  one full left-to-right pass per field.
* `RedactingFormatter`, a `logging.Formatter` subclass whose `format` sets
  `record.msg = filter_datum(self.fields, "***", record.getMessage(), ";")`
  and then delegates to the standard `logging.Formatter.format`.
* `get_logger()`, which fetches the process-wide logger named `"user_data"`,
  sets level INFO, disables propagation and appends a stream handler carrying
  a `RedactingFormatter(PII_FIELDS)`.

The embedding below models strings as `List Char`.  Python's `re.sub` with the
pattern `f=.*?<sep>` is modeled exactly for literal (regex-metacharacter-free)
field names and a literal one-character separator, which is the precondition
the specification states for this function (§4.1) and the only domain on which
the source is defined (a metacharacter separator such as `'*'` makes `re.sub`
raise `re.error`).  Matching is non-greedy and `.` does not match a newline
(no `re.DOTALL`), which the model reflects: the value scan stops at the first
separator and fails on a newline or at end of string.  Replacement strings are
taken literally (the redaction `"***"` contains no backslash escapes).
-/

/-- One attempted match of the regex tail `.*?<sep>` (non-greedy, `.` does not
match `'\n'`): returns the shortest newline-free value followed by the
separator, together with the remainder after the separator. -/
def valueScan (c : Char) : List Char → Option (List Char × List Char)
  | [] => none
  | x :: xs =>
    if x = c then some ([], xs)
    else if x = '\n' then none
    else
      match valueScan c xs with
      | some (v, r) => some (x :: v, r)
      | none => none

/-- One attempted match of the full pattern `f=.*?<sep>` at the start of `s`:
the literal `f` and `=`, then `valueScan`. -/
def tryMatchAt (f : List Char) (c : Char) (s : List Char) : Option (List Char × List Char) :=
  if s.take (f.length + 1) = f ++ ['='] then valueScan c (s.drop (f.length + 1)) else none

/-- The `re.sub` scan, fueled so that the kernel can evaluate it.  At each
position: if the pattern matches, emit `f=<red><sep>` and resume after the
match (non-overlapping, left to right, exactly `re.sub`); otherwise copy one
character.  The fuel is an artifact of the encoding; `s.length` always
suffices (`reSubFuel_irrel`). -/
def reSubFuel (f red : List Char) (c : Char) : Nat → List Char → List Char
  | 0, s => s
  | fuel + 1, s =>
    match tryMatchAt f c s with
    | some (_, r) => f ++ '=' :: (red ++ c :: reSubFuel f red c fuel r)
    | none =>
      match s with
      | [] => []
      | x :: xs => x :: reSubFuel f red c fuel xs

/-- `re.sub(f'{f}=.*?{c}', f'{f}={red}{c}', s)` for a literal field `f` and
literal one-character separator `c`. -/
def reSub (f red : List Char) (c : Char) (s : List Char) : List Char :=
  reSubFuel f red c s.length s

/-- `filter_datum`: one `re.sub` pass per field, in list order
(`for f in fields: message = re.sub(...)`). -/
def filter_datum (fields : List (List Char)) (redaction : List Char)
    (message : List Char) (separator : Char) : List Char :=
  fields.foldl (fun m f => reSub f redaction separator m) message

/-- `PII_FIELDS = ("name", "email", "phone", "ssn", "password")`. -/
def PII_FIELDS : List (List Char) :=
  ["name".toList, "email".toList, "phone".toList, "ssn".toList, "password".toList]

/-- `RedactingFormatter.REDACTION = "***"`. -/
def REDACTION : List Char := "***".toList

/-- `RedactingFormatter.SEPARATOR = ";"` (a single character). -/
def SEPARATOR : Char := ';'

/-! ### Structured (well-formed) messages

A well-formed message is a concatenation of `key=value<sep>` pairs, the shape
produced by the row ingestor (`f'{f}={r};'`) and assumed by the spec's
"non-overlapping key spans" hypotheses. -/

/-- One `key=value` pair of a well-formed message. -/
structure Pair where
  key : List Char
  val : List Char
deriving DecidableEq

/-- `key=value<sep>`. -/
def renderPair (c : Char) (p : Pair) : List Char :=
  p.key ++ '=' :: (p.val ++ [c])

/-- A well-formed message: the concatenation of its pairs. -/
def render (c : Char) (ps : List Pair) : List Char :=
  (ps.map (renderPair c)).flatten

/-- A component (key, value, field name or redaction) is clean when it
contains neither the separator, nor `'='`, nor a newline. -/
def cleanStr (c : Char) (s : List Char) : Prop :=
  c ∉ s ∧ '=' ∉ s ∧ '\n' ∉ s

instance (c : Char) (s : List Char) : Decidable (cleanStr c s) := by
  unfold cleanStr; infer_instance

/-- Effect of one `reSub` pass for field `f` on one pair: the value is
replaced by the redaction exactly when the pattern `f=` matches at the pair's
`=`, i.e. when `f` is a suffix of the key. -/
def redact1 (f red : List Char) (p : Pair) : Pair :=
  if f.isSuffixOf p.key then ⟨p.key, red⟩ else p

/-- Effect of the full `filter_datum` on one pair: the value is replaced when
any listed field is a suffix of the key. -/
def redactPair (fields : List (List Char)) (red : List Char) (p : Pair) : Pair :=
  if fields.any (fun f => f.isSuffixOf p.key) then ⟨p.key, red⟩ else p

/-! ### The logging layer

`RedactingFormatter.format` and `get_logger` sit on top of Python's `logging`
machinery.  The parts of that machinery the source relies on are modeled
faithfully from CPython's documented semantics:

* `LogRecord.getMessage()` returns `str(self.msg)`, and when `self.args` is
  non-empty it re-applies percent interpolation: `msg % self.args`.  Percent
  interpolation is modeled for `%s` conversions with string arguments (the
  only kind this repository's records could carry); a conversion consumes one
  argument, `%%` is a literal percent, an unknown conversion or a dangling
  `%` raises, missing arguments raise, and leftover arguments raise
  (`TypeError: not all arguments converted during string formatting`).
* `logging.Formatter.format(record)` re-renders `record.getMessage()` and
  interpolates the class template
  `"[HOLBERTON] %(name)s %(levelname)s %(asctime)-15s: %(message)s"`;
  `%(asctime)-15s` left-justifies the timestamp string to width 15.  The
  timestamp text itself is an input of the model.
* Exceptions are modeled with `Except`: any raise inside `format` propagates
  to the caller (there is no handler in the source).
-/

deriving instance DecidableEq for Except

/-- The ways percent interpolation (and hence message rendering) can raise. -/
inductive FormatError where
  | notEnoughArguments
  | notAllArgumentsConverted
  | incompleteFormat
  | unsupportedConversion
deriving DecidableEq

/-- `fmt % args` for `%s` conversions: each `%s` consumes one argument,
`%%` is literal, leftover or missing arguments raise, as in CPython. -/
def percentFormat : List Char → List (List Char) → Except FormatError (List Char)
  | [], [] => .ok []
  | [], _ :: _ => .error .notAllArgumentsConverted
  | '%' :: 's' :: rest, a :: args =>
    match percentFormat rest args with
    | .ok out => .ok (a ++ out)
    | .error e => .error e
  | '%' :: 's' :: _, [] => .error .notEnoughArguments
  | '%' :: '%' :: rest, args =>
    match percentFormat rest args with
    | .ok out => .ok ('%' :: out)
    | .error e => .error e
  | ['%'], _ => .error .incompleteFormat
  | '%' :: _ :: _, _ => .error .unsupportedConversion
  | x :: rest, args =>
    match percentFormat rest args with
    | .ok out => .ok (x :: out)
    | .error e => .error e

/-- A pending log record: logger name, level name, message template `msg`,
and interpolation arguments `args` (empty list = `args` falsy in Python). -/
structure LogRecord where
  name : List Char
  levelname : List Char
  msg : List Char
  args : List (List Char)
deriving DecidableEq

/-- `LogRecord.getMessage()`: `msg = str(self.msg); if self.args:
msg = msg % self.args`. -/
def getMessage (r : LogRecord) : Except FormatError (List Char) :=
  if r.args.isEmpty then .ok r.msg else percentFormat r.msg r.args

/-- `%-15s`: left-justify to minimum width 15 with spaces. -/
def padRight (s : List Char) (n : Nat) : List Char :=
  s ++ List.replicate (n - s.length) ' '

/-- Interpolation of the template
`"[HOLBERTON] %(name)s %(levelname)s %(asctime)-15s: %(message)s"`. -/
def formatLine (name levelname asctime message : List Char) : List Char :=
  "[HOLBERTON] ".toList ++ name ++ ' ' :: (levelname ++ ' ' ::
    (padRight asctime 15 ++ ':' :: ' ' :: message))

/-- A `RedactingFormatter` instance: its only per-instance state is the field
list (`self.fields`). -/
structure RedactingFormatter where
  fields : List (List Char)
deriving DecidableEq

/-- `RedactingFormatter.format(record)`:
`record.msg = filter_datum(self.fields, REDACTION, record.getMessage(),
SEPARATOR)`, then `super().format(record)`, which renders
`record.getMessage()` again (with the record's unchanged `args`) and
interpolates the template.  Returns the mutated record together with the
produced line; any raise propagates. -/
def RedactingFormatter.format (self : RedactingFormatter) (record : LogRecord)
    (asctime : List Char) : Except FormatError (LogRecord × List Char) :=
  match getMessage record with
  | .error e => .error e
  | .ok rendered =>
    let record' : LogRecord :=
      { record with msg := filter_datum self.fields REDACTION rendered SEPARATOR }
    match getMessage record' with
    | .error e => .error e
    | .ok message =>
      .ok (record', formatLine record'.name record'.levelname asctime message)

/-- `logging.INFO`. -/
def INFO : Nat := 20

/-- A handler as configured by `get_logger`: a stream handler carrying a
`RedactingFormatter`. -/
structure Handler where
  formatter : RedactingFormatter
deriving DecidableEq

/-- The state of the process-wide logger registered under `"user_data"`:
level, propagation flag and attached handlers.  `logging.getLogger` returns
this same cached object on every call. -/
structure LoggerState where
  level : Nat
  propagate : Bool
  handlers : List Handler
deriving DecidableEq

/-- A freshly created logger: level `NOTSET` (0), propagation on,
no handlers. -/
def initialLoggerState : LoggerState :=
  { level := 0, propagate := true, handlers := [] }

/-- One call of `get_logger()` acting on the cached `"user_data"` logger:
sets level INFO, disables propagation, and appends a fresh stream handler
with a `RedactingFormatter(PII_FIELDS)` (`logger.addHandler` appends
unconditionally). -/
def get_logger (logger : LoggerState) : LoggerState :=
  { logger with
      level := INFO
      propagate := false
      handlers := logger.handlers ++ [⟨⟨PII_FIELDS⟩⟩] }

/-! ### Specification lemmas for the scan -/

theorem valueScan_eq_some {c : Char} {t v r : List Char}
    (h : valueScan c t = some (v, r)) : t = v ++ c :: r ∧ c ∉ v ∧ '\n' ∉ v := by
  induction t generalizing v r with
  | nil => simp [valueScan] at h
  | cons x xs ih =>
    by_cases hxc : x = c
    · rw [valueScan, if_pos hxc] at h
      have h1 : v = [] ∧ r = xs := by simpa [eq_comm] using h
      obtain ⟨rfl, rfl⟩ := h1
      subst hxc
      simp
    · by_cases hxn : x = '\n'
      · rw [valueScan, if_neg hxc, if_pos hxn] at h
        cases h
      · rw [valueScan, if_neg hxc, if_neg hxn] at h
        rcases hval : valueScan c xs with _ | ⟨v', r'⟩ <;> rw [hval] at h
        · cases h
        · have h1 : v = x :: v' ∧ r = r' := by simpa [eq_comm] using h
          obtain ⟨rfl, rfl⟩ := h1
          obtain ⟨h1, h2, h3⟩ := ih hval
          refine ⟨by simp [h1], ?_, ?_⟩
          · intro hmem
            rcases List.mem_cons.mp hmem with hh | hh
            · exact hxc hh.symm
            · exact h2 hh
          · intro hmem
            rcases List.mem_cons.mp hmem with hh | hh
            · exact hxn hh.symm
            · exact h3 hh

theorem valueScan_construct {c : Char} {v : List Char} (r : List Char)
    (hc : c ∉ v) (hn : '\n' ∉ v) : valueScan c (v ++ c :: r) = some (v, r) := by
  induction v with
  | nil => simp [valueScan]
  | cons a v' ih =>
    have ha1 : ¬ a = c := fun h => hc (by simp [h])
    have ha2 : ¬ a = '\n' := fun h => hn (by simp [h])
    have := ih (fun h => hc (by simp [h])) (fun h => hn (by simp [h]))
    simp [valueScan, ha1, ha2, this]

theorem tryMatchAt_eq_some {f c} {s v r : List Char}
    (h : tryMatchAt f c s = some (v, r)) :
    s = f ++ '=' :: (v ++ c :: r) ∧ c ∉ v ∧ '\n' ∉ v := by
  rw [tryMatchAt] at h
  split_ifs at h with hp
  · obtain ⟨ht, hc, hn⟩ := valueScan_eq_some h
    refine ⟨?_, hc, hn⟩
    calc s = s.take (f.length + 1) ++ s.drop (f.length + 1) := (List.take_append_drop _ s).symm
    _ = (f ++ ['=']) ++ (v ++ c :: r) := by rw [hp, ht]
    _ = f ++ '=' :: (v ++ c :: r) := by simp

theorem tryMatchAt_construct {f c} {v : List Char} (r : List Char)
    (hc : c ∉ v) (hn : '\n' ∉ v) :
    tryMatchAt f c (f ++ '=' :: (v ++ c :: r)) = some (v, r) := by
  have hsplit : f ++ '=' :: (v ++ c :: r) = (f ++ ['=']) ++ (v ++ c :: r) := by simp
  have hlen : (f ++ ['=']).length = f.length + 1 := by simp
  rw [tryMatchAt, hsplit, ← hlen, List.take_left, List.drop_left, if_pos rfl]
  exact valueScan_construct r hc hn

theorem tryMatchAt_nil {f : List Char} {c : Char} : tryMatchAt f c [] = none := by
  rw [tryMatchAt, if_neg]
  intro h
  have := congrArg List.length h
  simp at this

theorem tryMatchAt_append {f c} {T v r : List Char} (S : List Char)
    (h : tryMatchAt f c T = some (v, r)) :
    tryMatchAt f c (T ++ S) = some (v, r ++ S) := by
  obtain ⟨hT, hc, hn⟩ := tryMatchAt_eq_some h
  have : T ++ S = f ++ '=' :: (v ++ c :: (r ++ S)) := by rw [hT]; simp
  rw [this]
  exact tryMatchAt_construct (r ++ S) hc hn

/-! ### Unfolding equations for `reSub` -/

theorem reSubFuel_succ {f red : List Char} {c : Char} {n : Nat} {s : List Char} :
    reSubFuel f red c (n + 1) s =
      match tryMatchAt f c s with
      | some (_, r) => f ++ '=' :: (red ++ c :: reSubFuel f red c n r)
      | none =>
        match s with
        | [] => []
        | x :: xs => x :: reSubFuel f red c n xs := rfl

theorem reSubFuel_nil {f red c} : ∀ n, reSubFuel f red c n [] = [] := by
  intro n
  cases n with
  | zero => rfl
  | succ n => simp only [reSubFuel_succ, tryMatchAt_nil]

theorem reSubFuel_irrel {f red : List Char} {c : Char} :
    ∀ (n m : Nat) (s : List Char), s.length ≤ n → s.length ≤ m →
      reSubFuel f red c n s = reSubFuel f red c m s := by
  intro n
  induction n with
  | zero =>
    intro m s hn _
    obtain rfl : s = [] := List.eq_nil_of_length_eq_zero (Nat.le_zero.mp hn)
    rw [reSubFuel_nil, reSubFuel_nil]
  | succ n ih =>
    intro m s hn hm
    cases m with
    | zero =>
      obtain rfl : s = [] := List.eq_nil_of_length_eq_zero (Nat.le_zero.mp hm)
      rw [reSubFuel_nil, reSubFuel_nil]
    | succ m =>
      rcases hmt : tryMatchAt f c s with _ | ⟨v, r⟩
      · cases s with
        | nil => rw [reSubFuel_nil, reSubFuel_nil]
        | cons x xs =>
          have hx : xs.length ≤ n := by
            simp only [List.length_cons] at hn; omega
          have hx' : xs.length ≤ m := by
            simp only [List.length_cons] at hm; omega
          simp only [reSubFuel_succ, hmt, ih m xs hx hx']
      · obtain ⟨hs, -, -⟩ := tryMatchAt_eq_some hmt
        have hr : r.length ≤ n ∧ r.length ≤ m := by
          have := congrArg List.length hs
          simp at this
          omega
        simp only [reSubFuel_succ, hmt, ih m r hr.1 hr.2]

theorem reSub_nil {f red c} : reSub f red c [] = [] := rfl

theorem reSub_match {f red : List Char} {c : Char} {s v r : List Char}
    (h : tryMatchAt f c s = some (v, r)) :
    reSub f red c s = f ++ '=' :: (red ++ c :: reSub f red c r) := by
  obtain ⟨hs, -, -⟩ := tryMatchAt_eq_some h
  have hlen : s.length = f.length + 1 + v.length + r.length + 1 := by
    rw [hs]; simp; omega
  rw [reSub, hlen]
  simp only [reSubFuel_succ, h]
  rw [reSub, reSubFuel_irrel _ r.length r (by omega) (by omega)]

theorem reSub_cons_none {f red : List Char} {c : Char} {x : Char} {xs : List Char}
    (h : tryMatchAt f c (x :: xs) = none) :
    reSub f red c (x :: xs) = x :: reSub f red c xs := by
  rw [reSub, List.length_cons]
  simp only [reSubFuel_succ, h]
  rw [reSub]

/-! ### List splitting lemmas -/

/-- Two decompositions of a list around marker elements that occur in neither
left part must coincide. -/
theorem append_cons_inj {α : Type} {A A' B B' : List α} {x y : α}
    (h : A ++ x :: B = A' ++ y :: B') (hx : x ∉ A') (hy : y ∉ A) :
    x = y ∧ A = A' ∧ B = B' := by
  induction A generalizing A' with
  | nil =>
    cases A' with
    | nil =>
      simp only [List.nil_append, List.cons.injEq] at h
      exact ⟨h.1, rfl, h.2⟩
    | cons a A'' =>
      simp only [List.nil_append, List.cons_append, List.cons.injEq] at h
      exact absurd (by simp [h.1]) hx
  | cons a A₂ ih =>
    cases A' with
    | nil =>
      simp only [List.cons_append, List.nil_append, List.cons.injEq] at h
      exact absurd (by simp [h.1]) hy
    | cons b A₂' =>
      simp only [List.cons_append, List.cons.injEq] at h
      obtain ⟨rfl, h2⟩ := h
      have hx' : x ∉ A₂' := fun hh => hx (List.mem_cons_of_mem _ hh)
      have hy' : y ∉ A₂ := fun hh => hy (List.mem_cons_of_mem _ hh)
      obtain ⟨h3, h4, h5⟩ := ih h2 hx' hy'
      exact ⟨h3, by rw [h4], h5⟩

/-- If `A ++ S` splits at a marker `c` that does not occur in `S`, the split
point lies inside `A`. -/
theorem append_split_at_sep {α : Type} {A S P r : List α} {c : α}
    (h : A ++ S = P ++ c :: r) (hcS : c ∉ S) :
    ∃ A₂, A = P ++ c :: A₂ ∧ r = A₂ ++ S := by
  induction P generalizing A with
  | nil =>
    cases A with
    | nil =>
      simp only [List.nil_append] at h
      exact absurd (by rw [h]; simp) hcS
    | cons a A₂ =>
      simp only [List.cons_append, List.nil_append, List.cons.injEq] at h
      exact ⟨A₂, by simp [h.1], h.2.symm⟩
  | cons p P' ih =>
    cases A with
    | nil =>
      simp only [List.nil_append] at h
      exact absurd (by rw [h]; simp) hcS
    | cons a A₂ =>
      simp only [List.cons_append, List.cons.injEq] at h
      obtain ⟨rfl, h2⟩ := h
      obtain ⟨A₃, h3, h4⟩ := ih h2
      exact ⟨A₃, by simp [h3], h4⟩

/-! ### Identity and suffix-preservation properties of the scan -/

/-- If the literal `f=` never occurs in the message, the pass is the
identity. -/
theorem reSub_id_of_no_occurrence {f red : List Char} {c : Char} {m : List Char}
    (h : ¬ (f ++ ['=']) <:+: m) : reSub f red c m = m := by
  induction m with
  | nil => exact reSub_nil
  | cons x xs ih =>
    rcases hmt : tryMatchAt f c (x :: xs) with _ | ⟨v, r⟩
    · rw [reSub_cons_none hmt, ih]
      intro hinf
      obtain ⟨s, t, hst⟩ := hinf
      exact h ⟨x :: s, t, by simp only [List.cons_append]; rw [hst]⟩
    · obtain ⟨hs, -, -⟩ := tryMatchAt_eq_some hmt
      exact absurd ⟨[], v ++ c :: r, by rw [hs]; simp⟩ h

/-- If the separator never occurs in the message, the pass is the identity
(every match needs a terminating separator). -/
theorem reSub_id_of_sep_not_mem {f red : List Char} {c : Char} {m : List Char}
    (h : c ∉ m) : reSub f red c m = m := by
  induction m with
  | nil => exact reSub_nil
  | cons x xs ih =>
    rcases hmt : tryMatchAt f c (x :: xs) with _ | ⟨v, r⟩
    · rw [reSub_cons_none hmt, ih (fun hh => h (List.mem_cons_of_mem _ hh))]
    · obtain ⟨hs, -, -⟩ := tryMatchAt_eq_some hmt
      exact absurd (by rw [hs]; simp) h

/-- A separator-free tail of the message is untouched by the pass: every
match ends at a separator, so no match reaches into the tail. -/
theorem reSub_append_aux (f red : List Char) (c : Char) (S : List Char) (hS : c ∉ S) :
    ∀ (n : Nat) (A : List Char), A.length ≤ n →
      reSub f red c (A ++ S) = reSub f red c A ++ S := by
  intro n
  induction n with
  | zero =>
    intro A hA
    obtain rfl : A = [] := List.eq_nil_of_length_eq_zero (Nat.le_zero.mp hA)
    simp [reSub_nil, reSub_id_of_sep_not_mem hS]
  | succ n ih =>
    intro A hA
    cases A with
    | nil => simp [reSub_nil, reSub_id_of_sep_not_mem hS]
    | cons x xs =>
      rw [List.cons_append]
      rcases hmt : tryMatchAt f c (x :: (xs ++ S)) with _ | ⟨v, r⟩
      · have hmt' : tryMatchAt f c (x :: xs) = none := by
          rcases hq : tryMatchAt f c (x :: xs) with _ | ⟨v, r⟩
          · rfl
          · have := tryMatchAt_append S hq
            rw [List.cons_append] at this
            rw [this] at hmt
            cases hmt
        rw [reSub_cons_none hmt, reSub_cons_none hmt',
          ih xs (by simpa using Nat.lt_succ_iff.mp (Nat.lt_of_lt_of_le (by simp) hA))]
        simp
      · obtain ⟨hs, hcv, hnv⟩ := tryMatchAt_eq_some hmt
        have hs' : (x :: xs) ++ S = (f ++ '=' :: v) ++ c :: r := by
          rw [List.cons_append, hs]; simp
        obtain ⟨A₂, hA2, hr⟩ := append_split_at_sep hs' hS
        have hmt2 : tryMatchAt f c (x :: xs) = some (v, A₂) := by
          have hx2 : x :: xs = f ++ '=' :: (v ++ c :: A₂) := by rw [hA2]; simp
          rw [hx2]
          exact tryMatchAt_construct A₂ hcv hnv
        have hlen : A₂.length ≤ n := by
          have := congrArg List.length hA2
          simp only [List.length_cons, List.length_append] at this hA
          omega
        rw [reSub_match hmt, reSub_match hmt2, hr, ih A₂ hlen]
        simp

/-- `reSub` on `A ++ S` with a separator-free `S` acts on `A` only. -/
theorem reSub_append_sep_free {f red : List Char} {c : Char} {A S : List Char}
    (hS : c ∉ S) : reSub f red c (A ++ S) = reSub f red c A ++ S :=
  reSub_append_aux f red c S hS A.length A (Nat.le_refl _)

/-- `filter_datum` on `A ++ S` with a separator-free `S` acts on `A` only. -/
theorem filter_datum_append_sep_free {fields : List (List Char)} {red : List Char}
    {c : Char} {S : List Char} (hS : c ∉ S) :
    ∀ A, filter_datum fields red (A ++ S) c = filter_datum fields red A c ++ S := by
  induction fields with
  | nil => intro A; rfl
  | cons f fs ih =>
    intro A
    simp only [filter_datum, List.foldl_cons] at *
    rw [reSub_append_sep_free hS]
    exact ih _

/-- If no listed field’s `f=` occurs in the message, `filter_datum` is the
identity. -/
theorem filter_datum_id_of_no_occurrence {fields : List (List Char)} {red : List Char}
    {c : Char} {m : List Char} (h : ∀ f ∈ fields, ¬ (f ++ ['=']) <:+: m) :
    filter_datum fields red m c = m := by
  induction fields with
  | nil => rfl
  | cons f fs ih =>
    simp only [filter_datum, List.foldl_cons] at *
    rw [reSub_id_of_no_occurrence (h f (by simp))]
    exact ih (fun g hg => h g (List.mem_cons_of_mem _ hg))

/-! ### The pass on well-formed messages -/

/-- Scanning through (a tail of) a clean value: no position matches, because
a match would put the separator where the pattern demands `=`. -/
theorem reSub_skip_value {f red : List Char} {c : Char} (hc : c ≠ '=') (hf1 : c ∉ f) :
    ∀ v₂ rest : List Char, '=' ∉ v₂ →
      reSub f red c (v₂ ++ c :: rest) = v₂ ++ c :: reSub f red c rest := by
  intro v₂
  induction v₂ with
  | nil =>
    intro rest _
    have hmt : tryMatchAt f c (c :: rest) = none := by
      rcases hq : tryMatchAt f c (c :: rest) with _ | ⟨v', r'⟩
      · rfl
      · obtain ⟨hs, -, -⟩ := tryMatchAt_eq_some hq
        have h' : ([] : List Char) ++ c :: rest = f ++ '=' :: (v' ++ c :: r') := by
          simpa using hs
        obtain ⟨hce, -, -⟩ := append_cons_inj h' hf1 (by simp)
        exact absurd hce hc
    simp only [List.nil_append]
    rw [reSub_cons_none hmt]
  | cons a v₂' ih =>
    intro rest hv
    have hmt : tryMatchAt f c (a :: (v₂' ++ c :: rest)) = none := by
      rcases hq : tryMatchAt f c (a :: (v₂' ++ c :: rest)) with _ | ⟨v', r'⟩
      · rfl
      · obtain ⟨hs, -, -⟩ := tryMatchAt_eq_some hq
        have h' : (a :: v₂') ++ c :: rest = f ++ '=' :: (v' ++ c :: r') := by
          simpa using hs
        obtain ⟨hce, -, -⟩ := append_cons_inj h' hf1 hv
        exact absurd hce hc
    simp only [List.cons_append]
    rw [reSub_cons_none hmt, ih rest (fun hh => hv (List.mem_cons_of_mem _ hh))]

/-- Scanning through a pair whose key does not end with `f`: the pair is
copied unchanged (no position inside it matches). -/
theorem reSub_skip_pair {f red : List Char} {c : Char} (hc : c ≠ '=') (hf1 : c ∉ f)
    (hf2 : '=' ∉ f) :
    ∀ k v rest : List Char, ¬ f <:+ k → '=' ∉ k → '=' ∉ v →
      reSub f red c (k ++ '=' :: (v ++ c :: rest))
        = k ++ '=' :: (v ++ c :: reSub f red c rest) := by
  intro k
  induction k with
  | nil =>
    intro v rest hsfx hk hv
    have hmt : tryMatchAt f c ('=' :: (v ++ c :: rest)) = none := by
      rcases hq : tryMatchAt f c ('=' :: (v ++ c :: rest)) with _ | ⟨v', r'⟩
      · rfl
      · obtain ⟨hs, -, -⟩ := tryMatchAt_eq_some hq
        have h' : ([] : List Char) ++ '=' :: (v ++ c :: rest)
            = f ++ '=' :: (v' ++ c :: r') := by simpa using hs
        obtain ⟨-, hfe, -⟩ := append_cons_inj h' hf2 (by simp)
        obtain rfl : f = [] := hfe.symm
        exact absurd ⟨[], rfl⟩ hsfx
    simp only [List.nil_append]
    rw [reSub_cons_none hmt, reSub_skip_value hc hf1 v rest hv]
  | cons a k' ih =>
    intro v rest hsfx hk hv
    have hmt : tryMatchAt f c (a :: (k' ++ '=' :: (v ++ c :: rest))) = none := by
      rcases hq : tryMatchAt f c (a :: (k' ++ '=' :: (v ++ c :: rest))) with _ | ⟨v', r'⟩
      · rfl
      · obtain ⟨hs, -, -⟩ := tryMatchAt_eq_some hq
        have h' : (a :: k') ++ '=' :: (v ++ c :: rest) = f ++ '=' :: (v' ++ c :: r') := by
          simpa using hs
        obtain ⟨-, hke, -⟩ := append_cons_inj h' hf2 hk
        obtain rfl : f = a :: k' := hke.symm
        exact absurd ⟨[], rfl⟩ hsfx
    simp only [List.cons_append]
    rw [reSub_cons_none hmt,
      ih v rest (fun hh => hsfx (hh.trans ⟨[a], rfl⟩)) (fun hh => hk (List.mem_cons_of_mem _ hh)) hv]

/-- Scanning through a pair whose key does end with `f`: the scan copies the
rest of the key, then matches exactly the `f=value<sep>` segment and replaces
the value by the redaction. -/
theorem reSub_match_pair {f red : List Char} {c : Char} (hf2 : '=' ∉ f) :
    ∀ k₀ v rest : List Char, '=' ∉ k₀ → c ∉ v → '\n' ∉ v →
      reSub f red c (k₀ ++ (f ++ '=' :: (v ++ c :: rest)))
        = k₀ ++ (f ++ '=' :: (red ++ c :: reSub f red c rest)) := by
  intro k₀
  induction k₀ with
  | nil =>
    intro v rest _ hcv hnv
    simp only [List.nil_append]
    rw [reSub_match (tryMatchAt_construct rest hcv hnv)]
  | cons a k₀' ih =>
    intro v rest hk hcv hnv
    have hmt : tryMatchAt f c (a :: (k₀' ++ (f ++ '=' :: (v ++ c :: rest)))) = none := by
      rcases hq : tryMatchAt f c (a :: (k₀' ++ (f ++ '=' :: (v ++ c :: rest))))
        with _ | ⟨v', r'⟩
      · rfl
      · obtain ⟨hs, -, -⟩ := tryMatchAt_eq_some hq
        have h' : ((a :: k₀') ++ f) ++ '=' :: (v ++ c :: rest)
            = f ++ '=' :: (v' ++ c :: r') := by
          simpa [List.append_assoc] using hs
        have hy : '=' ∉ (a :: k₀') ++ f := by
          intro hh
          rcases List.mem_append.mp hh with hh | hh
          · exact hk hh
          · exact hf2 hh
        obtain ⟨-, hke, -⟩ := append_cons_inj h' hf2 hy
        have := congrArg List.length hke
        simp at this
        exact absurd this (by omega)
    simp only [List.cons_append]
    rw [reSub_cons_none hmt,
      ih v rest (fun hh => hk (List.mem_cons_of_mem _ hh)) hcv hnv]

/-- One full pass for field `f` on a well-formed message: exactly the pairs
whose key ends with `f` have their value replaced by the redaction. -/
theorem reSub_render (f red : List Char) {c : Char} (hc : c ≠ '=') (hf1 : c ∉ f)
    (hf2 : '=' ∉ f) :
    ∀ ps : List Pair, (∀ p ∈ ps, cleanStr c p.key ∧ cleanStr c p.val) →
      reSub f red c (render c ps) = render c (ps.map (redact1 f red)) := by
  intro ps
  induction ps with
  | nil => intro _; simp [render, reSub_nil]
  | cons p ps' ih =>
    intro hclean
    obtain ⟨⟨hk1, hk2, hk3⟩, hv1, hv2, hv3⟩ := hclean p (by simp)
    have hrest : ∀ q ∈ ps', cleanStr c q.key ∧ cleanStr c q.val :=
      fun q hq => hclean q (List.mem_cons_of_mem _ hq)
    have hrender : render c (p :: ps') = p.key ++ '=' :: (p.val ++ c :: render c ps') := by
      simp [render, renderPair]
    by_cases hsfx : f.isSuffixOf p.key
    · obtain ⟨k₀, hk₀⟩ : f <:+ p.key := List.isSuffixOf_iff_suffix.mp hsfx
      have hk₀2 : '=' ∉ k₀ := fun hh => hk2 (hk₀ ▸ List.mem_append_left _ hh)
      rw [hrender, ← hk₀, List.append_assoc,
        reSub_match_pair hf2 k₀ p.val (render c ps') hk₀2 hv1 hv3, ih hrest]
      simp [render, renderPair, redact1, hsfx, ← hk₀]
    · have hsfx' : ¬ f <:+ p.key := fun hh => hsfx (List.isSuffixOf_iff_suffix.mpr hh)
      rw [hrender,
        reSub_skip_pair hc hf1 hf2 p.key p.val (render c ps') hsfx' hk2 hv2, ih hrest]
      simp [render, renderPair, redact1, hsfx]

/-- Composing the per-field pair effects over the field list. -/
theorem redact1_then_redactPair (fs : List (List Char)) (f red : List Char) (p : Pair) :
    redactPair fs red (redact1 f red p) = redactPair (f :: fs) red p := by
  unfold redact1 redactPair
  by_cases h : f.isSuffixOf p.key
  · rw [if_pos h]
    simp only [List.any_cons, h, Bool.true_or, if_pos]
    by_cases h2 : fs.any (fun g => g.isSuffixOf p.key) <;> simp [h2]
  · rw [if_neg h]
    simp [List.any_cons, h]

/-- `filter_datum` on a well-formed message: each pair's value is replaced by
the redaction exactly when some listed field is a suffix of its key. -/
theorem filter_datum_render {c : Char} (hc : c ≠ '=') :
    ∀ (fields : List (List Char)) (red : List Char) (ps : List Pair),
      cleanStr c red → (∀ f ∈ fields, c ∉ f ∧ '=' ∉ f) →
      (∀ p ∈ ps, cleanStr c p.key ∧ cleanStr c p.val) →
      filter_datum fields red (render c ps) c = render c (ps.map (redactPair fields red)) := by
  intro fields
  induction fields with
  | nil =>
    intro red ps _ _ _
    have h2 : ps.map (redactPair [] red) = ps := by
      have h3 : ps.map (redactPair [] red) = ps.map id :=
        List.map_congr_left (fun a _ => by simp [redactPair])
      rw [h3, List.map_id]
    show render c ps = render c (ps.map (redactPair [] red))
    rw [h2]
  | cons f fs ih =>
    intro red ps hred hfs hps
    have hf := hfs f (by simp)
    have h1 := reSub_render f red hc hf.1 hf.2 ps hps
    have hclean' : ∀ q ∈ ps.map (redact1 f red), cleanStr c q.key ∧ cleanStr c q.val := by
      intro q hq
      obtain ⟨p, hp, rfl⟩ := List.mem_map.mp hq
      obtain ⟨hk, hv⟩ := hps p hp
      unfold redact1
      by_cases h : f.isSuffixOf p.key
      · rw [if_pos h]; exact ⟨hk, hred⟩
      · rw [if_neg h]; exact ⟨hk, hv⟩
    have step : filter_datum (f :: fs) red (render c ps) c
        = filter_datum fs red (reSub f red c (render c ps)) c := rfl
    rw [step, h1, ih red (ps.map (redact1 f red)) hred
      (fun g hg => hfs g (List.mem_cons_of_mem _ hg)) hclean', List.map_map]
    have : redactPair fs red ∘ redact1 f red = redactPair (f :: fs) red :=
      funext (redact1_then_redactPair fs f red)
    rw [this]

/-! ### No-leakage analysis on well-formed messages -/

/-- Any occurrence of `f=` inside `key ++ '=' :: tail` (key free of `'='`)
either aligns with the key's `=` (then `f` is a suffix of the key) or lies
entirely in the tail. -/
theorem occurrence_align {f : List Char} (hf2 : '=' ∉ f) :
    ∀ (s k X Y : List Char), '=' ∉ k →
      s ++ (f ++ '=' :: X) = k ++ '=' :: Y →
      (∃ k₀, k₀ ++ f = k ∧ X = Y) ∨ (∃ s', s' ++ (f ++ '=' :: X) = Y) := by
  intro s
  induction s with
  | nil =>
    intro k X Y hk h
    simp only [List.nil_append] at h
    obtain ⟨-, hfk, hXY⟩ := append_cons_inj h hk hf2
    exact Or.inl ⟨[], by simp [hfk], hXY⟩
  | cons a s' ih =>
    intro k X Y hk h
    cases k with
    | nil =>
      simp only [List.cons_append, List.nil_append, List.cons.injEq] at h
      exact Or.inr ⟨s', h.2⟩
    | cons b k' =>
      simp only [List.cons_append, List.cons.injEq] at h
      obtain ⟨rfl, h2⟩ := h
      rcases ih k' X Y (fun hh => hk (List.mem_cons_of_mem _ hh)) h2 with
        ⟨k₀, hk₀, hXY⟩ | ⟨s'', hs''⟩
      · exact Or.inl ⟨a :: k₀, by simp [hk₀], hXY⟩
      · exact Or.inr ⟨s'', hs''⟩

/-- Any occurrence of `f=` inside `w ++ c :: tail` (`w` free of `'='`, the
separator not in `f` and distinct from `'='`) lies entirely in the tail. -/
theorem occurrence_beyond_value {f : List Char} {c : Char} (hc : c ≠ '=') (hf1 : c ∉ f) :
    ∀ (s w X Z : List Char), '=' ∉ w →
      s ++ (f ++ '=' :: X) = w ++ c :: Z →
      ∃ s', s' ++ (f ++ '=' :: X) = Z := by
  intro s
  induction s with
  | nil =>
    intro w X Z hw h
    simp only [List.nil_append] at h
    obtain ⟨he, -, -⟩ := append_cons_inj h hw hf1
    exact absurd he.symm hc
  | cons a s' ih =>
    intro w X Z hw h
    cases w with
    | nil =>
      simp only [List.cons_append, List.nil_append, List.cons.injEq] at h
      exact ⟨s', h.2⟩
    | cons b w' =>
      simp only [List.cons_append, List.cons.injEq] at h
      obtain ⟨rfl, h2⟩ := h
      exact ih w' X Z (fun hh => hw (List.mem_cons_of_mem _ hh)) h2

/-- In a well-formed message all of whose pairs are clean and in which every
pair whose key ends with `f` already carries the redaction as value, the
string `f=<v><sep>` does not occur for any clean `v ≠ red`. -/
theorem render_no_field_pair {f red v : List Char} {c : Char}
    (hc : c ≠ '=') (hf1 : c ∉ f) (hf2 : '=' ∉ f) (hrc : c ∉ red)
    (hvc : c ∉ v) (hv : v ≠ red) :
    ∀ qs : List Pair,
      (∀ p ∈ qs, cleanStr c p.key ∧ cleanStr c p.val ∧ (f <:+ p.key → p.val = red)) →
      ∀ s t, s ++ (f ++ '=' :: (v ++ c :: t)) ≠ render c qs := by
  intro qs
  induction qs with
  | nil =>
    intro _ s t h
    have := congrArg List.length h
    simp [render] at this
  | cons p qs' ih =>
    intro hq s t h
    obtain ⟨⟨hk1, hk2, hk3⟩, ⟨hv1', hv2', hv3'⟩, hred'⟩ := hq p (by simp)
    have hrender : render c (p :: qs') = p.key ++ '=' :: (p.val ++ c :: render c qs') := by
      simp [render, renderPair]
    rw [hrender] at h
    rcases occurrence_align hf2 s p.key (v ++ c :: t) (p.val ++ c :: render c qs') hk2 h with
      ⟨k₀, hk₀, hXY⟩ | ⟨s', hs'⟩
    · have hval : p.val = red := hred' ⟨k₀, hk₀⟩
      rw [hval] at hXY
      obtain ⟨-, hvred, -⟩ := append_cons_inj hXY hrc hvc
      exact hv hvred
    · obtain ⟨s'', hs''⟩ := occurrence_beyond_value hc hf1 s' p.val _ _ hv2' hs'
      exact ih (fun q hq' => hq q (List.mem_cons_of_mem _ hq')) s'' t hs''

/-- Redacting a pair twice is the same as redacting it once. -/
theorem redactPair_idem (fields : List (List Char)) (red : List Char) (p : Pair) :
    redactPair fields red (redactPair fields red p) = redactPair fields red p := by
  unfold redactPair
  by_cases h : fields.any (fun g => g.isSuffixOf p.key)
  · simp only [h, if_pos]
  · simp only [h]
    rw [if_neg (by simp [h]), if_neg (by simp [h])]

/-! ### Claim theorems -/

/-- C4, counterexample.  The claim says a message composed only of
`key=value<sep>` pairs whose keys are all outside the fields list is returned
unchanged.  False: with fields `["ame"]` and message `"name=x;"` the only key
is `"name"`, which is not in the fields list, yet the pattern `ame=.*?;`
matches inside the key `name` and the message is rewritten to
`"name=***;"`. -/
theorem c4_embedded_field_cex :
    filter_datum ["ame".toList] REDACTION ("name=x;".toList) ';' = "name=***;".toList
    ∧ "name=***;".toList ≠ "name=x;".toList := by
  constructor <;> decide

/-- C4, amended.  `filter_datum` returns the message unchanged whenever, for
every listed field `f`, the string `f=` does not occur in the message — in
particular for pair-structured messages in which no key has a listed field as
suffix and no value embeds `f=`.  A field whose `f=` is absent from the
message causes no change and no error. -/
theorem c4_no_field_occurrence_identity {fields : List (List Char)} {red m : List Char}
    {c : Char} (h : ∀ f ∈ fields, ¬ (f ++ ['=']) <:+: m) :
    filter_datum fields red m c = m :=
  filter_datum_id_of_no_occurrence h

/-- C4, witness for the amended theorem at a concrete input: fields
`["email", "ssn"]` are absent from `"name=Bob;"`, which is returned
unchanged. -/
theorem c4_no_field_occurrence_identity_wit :
    (∀ f ∈ ["email".toList, "ssn".toList], ¬ (f ++ ['=']) <:+: "name=Bob;".toList)
    ∧ filter_datum ["email".toList, "ssn".toList] REDACTION ("name=Bob;".toList) ';'
        = "name=Bob;".toList :=
  ⟨by decide, c4_no_field_occurrence_identity (by decide)⟩

/-- C7, counterexample.  The claim says that for a listed field whose value
contains the separator, only the segment up to the first separator is
replaced and the remainder is left in place.  False when the remainder itself
contains a further `field=` occurrence: in `"note=a;note=b;"` (field `note`
with value `a;note=b`), the remainder `note=b;` is redacted too, giving
`"note=***;note=***;"` instead of the claimed `"note=***;note=b;"`. -/
theorem c7_remainder_rematch_cex :
    filter_datum ["note".toList] REDACTION ("note=a;note=b;".toList) ';'
        = "note=***;note=***;".toList
    ∧ "note=***;note=***;".toList ≠ "note=***;note=b;".toList := by
  constructor <;> decide

/-- C7, amended.  For a listed field whose value contains the separator, the
match is truncated at the first separator: only `f=<part before first sep><sep>`
is replaced by `f=<redaction><sep>`, and the remainder after that separator is
left in place, provided the pre-separator part contains no newline (`.` does
not match `'\n'`) and the remainder contains no further `f=` occurrence. -/
theorem c7_truncation_first_separator (f red : List Char) (c : Char) (v1 v2 : List Char)
    (hv1c : c ∉ v1) (hv1n : '\n' ∉ v1) (hv2 : ¬ (f ++ ['=']) <:+: v2) :
    filter_datum [f] red (f ++ '=' :: (v1 ++ c :: v2)) c = f ++ '=' :: (red ++ c :: v2) := by
  show reSub f red c _ = _
  rw [reSub_match (tryMatchAt_construct v2 hv1c hv1n), reSub_id_of_no_occurrence hv2]

/-- C7, witness: the spec's own example, `filter_datum(["note"], "***",
"note=a;b;", ";") = "note=***;b;"` (value `a;b`, truncated at the first
separator). -/
theorem c7_truncation_first_separator_wit :
    (';' ∉ "a".toList) ∧ ('\n' ∉ "a".toList)
    ∧ (¬ ("note".toList ++ ['=']) <:+: "b;".toList)
    ∧ filter_datum ["note".toList] REDACTION ("note=a;b;".toList) ';'
        = "note=***;b;".toList := by
  refine ⟨by decide, by decide, by decide, ?_⟩
  have h := c7_truncation_first_separator ("note".toList) REDACTION ';'
    ("a".toList) ("b;".toList) (by decide) (by decide) (by decide)
  simpa using h

/-- C10, counterexample.  The claim says that for every listed field `f` and
message in which `f=value` occurs with no separator anywhere after the `=`,
that occurrence is left byte-for-byte unchanged.  False when the separator
occurs inside the field name: with fields `["x", "a;b"]` and message
`"x=ka;b=2"`, the occurrence `a;b=2` (no `;` after its `=`) is destroyed,
because the pass for `x` consumes up to the `;` inside it, leaving
`"x=***;b=2"`, which does not retain `a;b=2`. -/
theorem c10_separator_in_field_cex :
    filter_datum ["x".toList, "a;b".toList] REDACTION ("x=ka;b=2".toList) ';'
        = "x=***;b=2".toList
    ∧ ¬ ("a;b".toList ++ '=' :: "2".toList) <:+ "x=***;b=2".toList := by
  constructor <;> decide

/-- C10, amended.  For every listed field `f` and message of the form
`a ++ f=b` where the separator occurs nowhere from the start of the `f=`
occurrence onward (not in `f`, not equal to `'='`, not in `b`), `filter_datum`
leaves that trailing occurrence byte-for-byte in place: the output still ends
with `f=b` and the value is not redacted, because a replacement happens only
for segments terminated by the separator. -/
theorem c10_trailing_pair_preserved {fields : List (List Char)} {red : List Char}
    {c : Char} (a f b : List Char) (_hf : f ∈ fields) (hcf : c ∉ f) (hce : c ≠ '=')
    (hcb : c ∉ b) :
    (f ++ '=' :: b) <:+ filter_datum fields red (a ++ (f ++ '=' :: b)) c := by
  have hS : c ∉ f ++ '=' :: b := by
    intro hh
    rcases List.mem_append.mp hh with hh | hh
    · exact hcf hh
    · rcases List.mem_cons.mp hh with hh | hh
      · exact hce hh
      · exact hcb hh
  rw [filter_datum_append_sep_free hS a]
  exact ⟨_, rfl⟩

/-- C10, witness: with fields `["name"]`, the message `"x=1;name=Bob"` keeps
its unterminated trailing pair `name=Bob` unredacted. -/
theorem c10_trailing_pair_preserved_wit :
    ("name".toList ++ '=' :: "Bob".toList) <:+
      filter_datum ["name".toList] REDACTION ("x=1;".toList ++ ("name".toList ++ '=' :: "Bob".toList)) ';' :=
  c10_trailing_pair_preserved ("x=1;".toList) ("name".toList) ("Bob".toList)
    (by decide) (by decide) (by decide) (by decide)

/-- C3, code bug.  The claim (and the spec) requires `get_logger` to be
idempotent: after any number of calls the `"user_data"` logger has exactly
one attached handler.  The code fetches the cached logger and appends a fresh
stream handler on every call, so after two calls the logger carries two
handlers (duplicated emission).  The first call does produce level INFO,
propagation off and one handler with a `RedactingFormatter(PII_FIELDS)`. -/
theorem c3_duplicate_handlers_bug :
    (get_logger initialLoggerState).level = INFO
    ∧ (get_logger initialLoggerState).propagate = false
    ∧ (get_logger initialLoggerState).handlers
        = [⟨⟨PII_FIELDS⟩⟩]
    ∧ (get_logger (get_logger initialLoggerState)).handlers.length = 2 :=
  ⟨rfl, rfl, rfl, rfl⟩

/-- C9: fail-closed error propagation.  If rendering the record's message
raises, `RedactingFormatter.format` propagates that error unmodified: it is
not suppressed, no fallback unredacted line is produced, and no line is
returned for that record. -/
theorem c9_render_failure_propagates (fmt : RedactingFormatter) (r : LogRecord)
    (asctime : List Char) (e : FormatError) (h : getMessage r = .error e) :
    RedactingFormatter.format fmt r asctime = .error e := by
  unfold RedactingFormatter.format
  rw [h]

/-- C9, witness: a record whose template takes no argument but carries one
(`msg = "x"`, `args = ["a"]`) raises `TypeError: not all arguments converted`
during rendering, and `format` returns exactly that error. -/
theorem c9_render_failure_propagates_wit :
    getMessage ⟨"user_data".toList, "INFO".toList, "x".toList, ["a".toList]⟩
        = .error .notAllArgumentsConverted
    ∧ RedactingFormatter.format ⟨PII_FIELDS⟩
        ⟨"user_data".toList, "INFO".toList, "x".toList, ["a".toList]⟩ "TS".toList
        = .error .notAllArgumentsConverted :=
  ⟨by decide, c9_render_failure_propagates _ _ _ _ (by decide)⟩

/-- C2, counterexample.  The claim says `format` always returns the
template-formatted line whose message component is the redacted rendered
message, with no re-interpolation of arguments afterwards.  False for a
record with interpolation arguments: the code overwrites `record.msg` but not
`record.args`, and the standard formatter calls `record.getMessage()` again,
re-applying `%`-interpolation to the already-redacted text.  For
`msg = "name=%s;"`, `args = ("Alice",)` this raises `TypeError` (no
conversion specifier remains), so no line is returned at all. -/
theorem c2_args_reinterpolation_cex :
    RedactingFormatter.format ⟨PII_FIELDS⟩
      ⟨"user_data".toList, "INFO".toList, "name=%s;".toList, ["Alice".toList]⟩ "TS".toList
    = .error .notAllArgumentsConverted := by decide

/-- C2, amended.  For every record whose argument list is empty (the only
kind this pipeline produces), `format` first overwrites the record's message
payload with `filter_datum(self.fields, "***", <rendered message>, ";")` and
then returns the standard template-formatted line whose message component is
exactly that redacted message — redaction applied once, no re-interpolation
afterwards. -/
theorem c2_format_redacts_once (fmt : RedactingFormatter) (r : LogRecord)
    (asctime : List Char) (h : r.args = []) :
    RedactingFormatter.format fmt r asctime =
      .ok ({ r with msg := filter_datum fmt.fields REDACTION r.msg SEPARATOR },
        formatLine r.name r.levelname asctime
          (filter_datum fmt.fields REDACTION r.msg SEPARATOR)) := by
  unfold RedactingFormatter.format getMessage
  simp [h]

/-- C2, witness: a concrete argument-free record flows through `format` into
the redacted line. -/
theorem c2_format_redacts_once_wit :
    RedactingFormatter.format ⟨PII_FIELDS⟩
        ⟨"user_data".toList, "INFO".toList, "name=Bob;".toList, []⟩ "TS".toList
      = .ok (⟨"user_data".toList, "INFO".toList,
            filter_datum PII_FIELDS REDACTION ("name=Bob;".toList) SEPARATOR, []⟩,
          formatLine ("user_data".toList) ("INFO".toList) ("TS".toList)
            (filter_datum PII_FIELDS REDACTION ("name=Bob;".toList) SEPARATOR)) :=
  c2_format_redacts_once ⟨PII_FIELDS⟩
    ⟨"user_data".toList, "INFO".toList, "name=Bob;".toList, []⟩ "TS".toList rfl

/-- C1, counterexample.  The claim says that when a configured PII field
appears as `field=value<sep>` with a separator-free value, the output of
`filter_datum` never contains the original value as a substring.  False: for
the PII field `name` and message `"name=a;"`, the value `a` is redacted, yet
the output `"name=***;"` still contains `"a"` — inside the retained field
name itself. -/
theorem c1_value_substring_cex :
    filter_datum PII_FIELDS REDACTION ("name=a;".toList) SEPARATOR = "name=***;".toList
    ∧ "a".toList <:+: "name=***;".toList := by
  constructor <;> decide

/-- C1, amended.  On a well-formed message (clean `key=value<sep>` pairs),
for every PII field `f` and every value `v` assigned to `f` in the message
(with `v ≠ "***"`), the output of `filter_datum` never contains the pair
`f=<v><sep>`: every occurrence of a pair whose key ends with a listed field
carries the redaction in the output.  (The bare value may still occur inside
retained text such as field names, which is what refutes the original
wording.) -/
theorem c1_no_pair_leak {c : Char} (ps : List Pair) (f v : List Char)
    (hc : c ≠ '=') (hcr : c ∉ REDACTION)
    (hfs : ∀ g ∈ PII_FIELDS, c ∉ g ∧ '=' ∉ g)
    (hps : ∀ p ∈ ps, cleanStr c p.key ∧ cleanStr c p.val)
    (hf : f ∈ PII_FIELDS) (hpair : ∃ p ∈ ps, p.key = f ∧ p.val = v)
    (hv : v ≠ REDACTION) :
    ¬ (f ++ '=' :: (v ++ [c])) <:+: filter_datum PII_FIELDS REDACTION (render c ps) c := by
  intro hinf
  obtain ⟨s, t, hst⟩ := hinf
  have hred : cleanStr c REDACTION := ⟨hcr, by decide, by decide⟩
  rw [filter_datum_render hc PII_FIELDS REDACTION ps hred hfs hps] at hst
  have hst' : s ++ (f ++ '=' :: (v ++ c :: t))
      = render c (ps.map (redactPair PII_FIELDS REDACTION)) := by
    rw [← hst]; simp
  obtain ⟨p, hp, hkey, hval⟩ := hpair
  have hvc : c ∉ v := by rw [← hval]; exact (hps p hp).2.1
  have hq : ∀ q ∈ ps.map (redactPair PII_FIELDS REDACTION),
      cleanStr c q.key ∧ cleanStr c q.val ∧ (f <:+ q.key → q.val = REDACTION) := by
    intro q hq'
    obtain ⟨p', hp', rfl⟩ := List.mem_map.mp hq'
    obtain ⟨hk, hv'⟩ := hps p' hp'
    unfold redactPair
    by_cases hany : PII_FIELDS.any (fun g => g.isSuffixOf p'.key)
    · rw [if_pos hany]
      exact ⟨hk, hred, fun _ => rfl⟩
    · rw [if_neg hany]
      refine ⟨hk, hv', fun hsfx => absurd ?_ hany⟩
      exact List.any_eq_true.mpr ⟨f, hf, List.isSuffixOf_iff_suffix.mpr hsfx⟩
  exact render_no_field_pair hc (hfs f hf).1 (hfs f hf).2 hcr hvc hv _ hq s t hst'

/-- C1, witness for the amended theorem: for the message
`name=Bob;note=ok;` the output `name=***;note=ok;` does not contain the pair
`name=Bob;`. -/
theorem c1_no_pair_leak_wit :
    ¬ ("name".toList ++ '=' :: ("Bob".toList ++ [';'])) <:+:
      filter_datum PII_FIELDS REDACTION
        (render ';' [⟨"name".toList, "Bob".toList⟩, ⟨"note".toList, "ok".toList⟩]) ';' :=
  c1_no_pair_leak [⟨"name".toList, "Bob".toList⟩, ⟨"note".toList, "ok".toList⟩]
    ("name".toList) ("Bob".toList) (by decide) (by decide) (by decide) (by decide)
    (by decide) ⟨⟨"name".toList, "Bob".toList⟩, by decide, rfl, rfl⟩ (by decide)

/-- C5: idempotence on masked fields.  On a well-formed message none of whose
values equals `"***"`, applying `filter_datum` with redaction `"***"` twice
gives the same result as applying it once.  The separator must not occur in
the redaction (a separator `'*'` is a regex metacharacter on which the source
raises `re.error`, so the embedding covers every separator on which the code
is defined), must differ from `'='`, and fields and pair components are
clean. -/
theorem c5_idempotent {c : Char} (fields : List (List Char)) (ps : List Pair)
    (hc : c ≠ '=') (hcr : c ∉ REDACTION)
    (hfs : ∀ f ∈ fields, c ∉ f ∧ '=' ∉ f)
    (hps : ∀ p ∈ ps, cleanStr c p.key ∧ cleanStr c p.val)
    (_hvals : ∀ p ∈ ps, p.val ≠ REDACTION) :
    filter_datum fields REDACTION (filter_datum fields REDACTION (render c ps) c) c
      = filter_datum fields REDACTION (render c ps) c := by
  have hred : cleanStr c REDACTION := ⟨hcr, by decide, by decide⟩
  have hclean' : ∀ q ∈ ps.map (redactPair fields REDACTION),
      cleanStr c q.key ∧ cleanStr c q.val := by
    intro q hq'
    obtain ⟨p', hp', rfl⟩ := List.mem_map.mp hq'
    obtain ⟨hk, hv'⟩ := hps p' hp'
    unfold redactPair
    by_cases hany : fields.any (fun g => g.isSuffixOf p'.key)
    · rw [if_pos hany]; exact ⟨hk, hred⟩
    · rw [if_neg hany]; exact ⟨hk, hv'⟩
  rw [filter_datum_render hc fields REDACTION ps hred hfs hps,
    filter_datum_render hc fields REDACTION (ps.map (redactPair fields REDACTION))
      hred hfs hclean',
    List.map_map]
  have : redactPair fields REDACTION ∘ redactPair fields REDACTION
      = redactPair fields REDACTION :=
    funext (redactPair_idem fields REDACTION)
  rw [this]

/-- C5, witness at a concrete input: redacting
`name=Bob;note=ok;` twice equals redacting it once. -/
theorem c5_idempotent_wit :
    filter_datum ["name".toList, "email".toList] REDACTION
        (filter_datum ["name".toList, "email".toList] REDACTION
          (render ';' [⟨"name".toList, "Bob".toList⟩, ⟨"note".toList, "ok".toList⟩]) ';') ';'
      = filter_datum ["name".toList, "email".toList] REDACTION
          (render ';' [⟨"name".toList, "Bob".toList⟩, ⟨"note".toList, "ok".toList⟩]) ';' :=
  c5_idempotent ["name".toList, "email".toList]
    [⟨"name".toList, "Bob".toList⟩, ⟨"note".toList, "ok".toList⟩]
    (by decide) (by decide) (by decide) (by decide) (by decide)

/-- C6: order independence.  On a well-formed message (the claim's
"disjoint, non-overlapping key spans": clean `key=value<sep>` pairs and clean
field names), applying `filter_datum` with any permutation of the fields
list, redaction and separator fixed, yields the same final string: each
pass touches disjoint pairs, and whether a pair is redacted depends only on
the set of fields. -/
theorem c6_order_independence {c : Char} {red : List Char}
    (fields fields' : List (List Char)) (ps : List Pair)
    (hperm : List.Perm fields' fields)
    (hc : c ≠ '=') (hred : cleanStr c red)
    (hfs : ∀ f ∈ fields, c ∉ f ∧ '=' ∉ f)
    (hps : ∀ p ∈ ps, cleanStr c p.key ∧ cleanStr c p.val) :
    filter_datum fields' red (render c ps) c = filter_datum fields red (render c ps) c := by
  have hfs' : ∀ f ∈ fields', c ∉ f ∧ '=' ∉ f := fun f hf => hfs f (hperm.mem_iff.mp hf)
  rw [filter_datum_render hc fields' red ps hred hfs' hps,
    filter_datum_render hc fields red ps hred hfs hps]
  have hany : ∀ k : List Char,
      fields'.any (fun g => g.isSuffixOf k) = fields.any (fun g => g.isSuffixOf k) := by
    intro k
    by_cases hb : fields.any (fun g => g.isSuffixOf k) = true
    · obtain ⟨x, hx, hpx⟩ := List.any_eq_true.mp hb
      rw [hb]
      exact List.any_eq_true.mpr ⟨x, hperm.mem_iff.mpr hx, hpx⟩
    · have hb' : ¬ fields'.any (fun g => g.isSuffixOf k) = true := by
        intro hcon
        obtain ⟨x, hx, hpx⟩ := List.any_eq_true.mp hcon
        exact hb (List.any_eq_true.mpr ⟨x, hperm.mem_iff.mp hx, hpx⟩)
      simp only [Bool.not_eq_true] at hb hb'
      rw [hb, hb']
  have hmap : ps.map (redactPair fields' red) = ps.map (redactPair fields red) :=
    List.map_congr_left (fun p _ => by unfold redactPair; rw [hany p.key])
  rw [hmap]

/-- C6, witness: swapping the two fields of `["name", "note"]` on
`name=Bob;note=ok;` yields the same output. -/
theorem c6_order_independence_wit :
    filter_datum ["note".toList, "name".toList] REDACTION
        (render ';' [⟨"name".toList, "Bob".toList⟩, ⟨"note".toList, "ok".toList⟩]) ';'
      = filter_datum ["name".toList, "note".toList] REDACTION
          (render ';' [⟨"name".toList, "Bob".toList⟩, ⟨"note".toList, "ok".toList⟩]) ';' :=
  c6_order_independence ["name".toList, "note".toList] ["note".toList, "name".toList]
    [⟨"name".toList, "Bob".toList⟩, ⟨"note".toList, "ok".toList⟩]
    (by decide) (by decide) ⟨by decide, by decide, by decide⟩ (by decide) (by decide)

/-- C8: pipeline output format.  Formatting a record with message
`name=Alice;phone=555-1234;` through a `RedactingFormatter(PII_FIELDS)`
produces, for any timestamp, exactly the line
`[HOLBERTON] user_data INFO <asctime padded to 15>: name=***;phone=***;` —
app-tag, logger name, uppercase level name, timestamp, colon-space, redacted
message — which ends in `name=***;phone=***;` and contains `user_data` and
`INFO`. -/
theorem c8_pipeline_format (asctime : List Char) :
    RedactingFormatter.format ⟨PII_FIELDS⟩
        ⟨"user_data".toList, "INFO".toList, "name=Alice;phone=555-1234;".toList, []⟩ asctime
      = .ok (⟨"user_data".toList, "INFO".toList, "name=***;phone=***;".toList, []⟩,
          "[HOLBERTON] user_data INFO ".toList ++ padRight asctime 15
            ++ ':' :: ' ' :: "name=***;phone=***;".toList)
    ∧ "name=***;phone=***;".toList <:+
        ("[HOLBERTON] user_data INFO ".toList ++ padRight asctime 15
          ++ ':' :: ' ' :: "name=***;phone=***;".toList)
    ∧ "user_data".toList <:+:
        ("[HOLBERTON] user_data INFO ".toList ++ padRight asctime 15
          ++ ':' :: ' ' :: "name=***;phone=***;".toList)
    ∧ "INFO".toList <:+:
        ("[HOLBERTON] user_data INFO ".toList ++ padRight asctime 15
          ++ ':' :: ' ' :: "name=***;phone=***;".toList) := by
  have hfd : filter_datum PII_FIELDS REDACTION ("name=Alice;phone=555-1234;".toList) SEPARATOR
      = "name=***;phone=***;".toList := by decide
  refine ⟨?_, ?_, ?_, ?_⟩
  · unfold RedactingFormatter.format getMessage
    simp only [List.isEmpty_nil, if_pos]
    rw [hfd]
    simp [formatLine]
  · exact ⟨"[HOLBERTON] user_data INFO ".toList ++ padRight asctime 15 ++ [':', ' '],
      by simp⟩
  · exact ⟨"[HOLBERTON] ".toList,
      " INFO ".toList ++ padRight asctime 15 ++ ':' :: ' ' :: "name=***;phone=***;".toList,
      by simp⟩
  · exact ⟨"[HOLBERTON] user_data ".toList,
      " ".toList ++ padRight asctime 15 ++ ':' :: ' ' :: "name=***;phone=***;".toList,
      by simp⟩

/-- C8, witness at the concrete timestamp `"TS"`. -/
theorem c8_pipeline_format_wit :
    RedactingFormatter.format ⟨PII_FIELDS⟩
        ⟨"user_data".toList, "INFO".toList, "name=Alice;phone=555-1234;".toList, []⟩
        ("TS".toList)
      = .ok (⟨"user_data".toList, "INFO".toList, "name=***;phone=***;".toList, []⟩,
          "[HOLBERTON] user_data INFO ".toList ++ padRight ("TS".toList) 15
            ++ ':' :: ' ' :: "name=***;phone=***;".toList) :=
  (c8_pipeline_format ("TS".toList)).1
